import Mathlib

/-!
Verification of the number-theoretic primitives core
(`src/DataStructures/1_Primitive_Data_Structures/integer_advanced.py`).

Python's arbitrary-precision `int` is embedded as `Int` (or `Nat` where the
value is structurally non-negative).  Python's floor division `//` and sign-of-
divisor remainder `%` are `Int.fdiv` / `Int.fmod`.  `while` loops are embedded
as fuel-based structural recursion, with the fuel proved sufficient wherever a
claim needs it; fallible functions (ones that can raise `ValueError`) return
`Option`.  Bit operations on non-negative ints use `Nat` bitwise primitives;
the two's-complement idioms `x & -x` and `bs & ~m` are expressed through
`andNot` (bitwise AND-NOT), since for `x ≥ 0` the bit pattern of `-x` is the
complement of `x - 1` and that of `~m` is the complement of `m`.
-/

namespace IntegerAdvanced

/-- Python's `range(start, stop, step)` for a positive `step`:
`start, start+step, ...` strictly below `stop`. -/
def pyRange (start stop step : Nat) : List Nat :=
  List.range' start ((stop - start + step - 1) / step) step

/-- Bitwise AND-NOT on `Nat`, by fuel recursion over the bits of `a`
(fuel `a + 1` always suffices; see `andNotAux_congr`). -/
def andNotAux : Nat → Nat → Nat → Nat
  | 0, _, _ => 0
  | fuel + 1, a, b =>
    if a = 0 then 0 else 2 * andNotAux fuel (a / 2) (b / 2) + a % 2 * (1 - b % 2)

/-- `andNot a b` has exactly the bits set in `a` but not in `b`.  It embeds the
two's-complement source idioms on non-negative operands: `x & -x` is
`andNot x (x - 1)` and `bs & ~m` is `andNot bs m`. -/
def andNot (a b : Nat) : Nat := andNotAux (a + 1) a b

/-- Python's `n.bit_length()`, by fuel recursion (fuel `n + 1` suffices). -/
def bitLenAux : Nat → Nat → Nat
  | 0, _ => 0
  | fuel + 1, n => if n = 0 then 0 else bitLenAux fuel (n / 2) + 1

/-- Python's `n.bit_length()` for `n ≥ 0`. -/
def bitLen (n : Nat) : Nat := bitLenAux (n + 1) n

/-- `lowbit(x)`: the source returns `x & -x`; for non-negative `x` (the range
the spec discusses) this is the AND-NOT of `x` and `x - 1`. -/
def lowbit (x : Nat) : Nat := andNot x (x - 1)

/-- Loop body of `bitset_from_indices`: fold the indices into `bs`, failing
(`ValueError`) on the first negative index. -/
def bitset_from_indicesAux : List Int → Nat → Option Nat
  | [], bs => some bs
  | i :: rest, bs =>
    if i < 0 then none
    else bitset_from_indicesAux rest (bs ||| (1 <<< i.toNat))

/-- `bitset_from_indices(indices)`: build a bitset; raises on a negative index. -/
def bitset_from_indices (indices : List Int) : Option Nat :=
  bitset_from_indicesAux indices 0

/-- `bitset_add(bs, i) = bs | (1 << i)`; `1 << i` raises for negative `i`. -/
def bitset_add (bs : Nat) (i : Int) : Option Nat :=
  if i < 0 then none else some (bs ||| (1 <<< i.toNat))

/-- `bitset_remove(bs, i) = bs & ~(1 << i)`; raises for negative `i`. -/
def bitset_remove (bs : Nat) (i : Int) : Option Nat :=
  if i < 0 then none else some (andNot bs (1 <<< i.toNat))

/-- `bitset_contains(bs, i) = ((bs >> i) & 1) == 1`; raises for negative `i`. -/
def bitset_contains (bs : Nat) (i : Int) : Option Bool :=
  if i < 0 then none else some (decide ((bs >>> i.toNat) &&& 1 = 1))

/-- Kernighan loop of `bitset_iter`: isolate the lowest set bit `lb = bs & -bs`,
yield `lb.bit_length() - 1`, clear it with `bs ^= lb`.  Fuel recursion; fuel
`bs` suffices since `bs` strictly decreases (see `bitset_iterAux_spec`). -/
def bitset_iterAux : Nat → Nat → List Nat
  | 0, _ => []
  | fuel + 1, bs =>
    if bs = 0 then []
    else
      let lb := andNot bs (bs - 1)
      (bitLen lb - 1) :: bitset_iterAux fuel (bs ^^^ lb)

/-- `bitset_iter(bs)`: the list of indices of set bits yielded by the source
generator. -/
def bitset_iter (bs : Nat) : List Nat := bitset_iterAux bs bs

/-- The `while r:` loop of `egcd`, with Python's floor division `//` as
`Int.fdiv`.  Fuel recursion; `r.natAbs + 1` fuel suffices (`egcdLoop_isSome`). -/
def egcdLoop : Nat → Int → Int → Int → Int → Int → Int → Option (Int × Int × Int)
  | 0, _, _, _, _, _, _ => none
  | fuel + 1, old_r, r, old_s, s, old_t, t =>
    if r = 0 then some (old_r, old_s, old_t)
    else
      let q := Int.fdiv old_r r
      egcdLoop fuel r (old_r - q * r) s (old_s - q * s) t (old_t - q * t)

/-- `egcd(a, b)`: run the loop from `(a, b, 1, 0, 0, 1)`.  The default value is
never used: `egcd_eq_loop` shows the fuel suffices. -/
def egcd (a b : Int) : Int × Int × Int :=
  (egcdLoop (b.natAbs + 1) a b 1 0 0 1).getD (0, 0, 0)

/-- `modinv(a, m)`: `egcd(a % m, m)` (Python `%` = `Int.fmod`), then reduce the
coefficient mod `m`; `none` models `raise ValueError("inverse does not exist")`
when `g != 1`. -/
def modinv (a m : Int) : Option Int :=
  let gxy := egcd (a.fmod m) m
  if gxy.1 ≠ 1 then none else some (gxy.2.1.fmod m)

/-- Fast modular exponentiation by fuel recursion on the halved exponent; fuel
`e + 1` suffices, and `powMod_eq` proves the result is `b ^ e % n`, the value
of Python's built-in `pow(b, e, n)`. -/
def powModAux : Nat → Nat → Nat → Nat → Nat
  | 0, _, _, n => 1 % n
  | fuel + 1, b, e, n =>
    if e = 0 then 1 % n
    else
      let h := powModAux fuel b (e / 2) n
      let h2 := h * h % n
      if e % 2 = 0 then h2 else h2 * (b % n) % n

/-- Python's `pow(b, e, n)` (three-argument `pow`), for `n > 0`. -/
def powMod (b e n : Nat) : Nat := powModAux (e + 1) b e n

/-- `_DET_BASES_64`: the fixed witness bases used for `n < 2 ** 64`. -/
def _DET_BASES_64 : List Nat := [2, 3, 5, 7, 11, 13, 17]

/-- The literal small-prime list of the trial-division step. -/
def smallTrialPrimes : List Nat := [2, 3, 5, 7, 11, 13, 17, 19, 23, 29]

/-- The trial-division loop: `some true` on an exact match, `some false` on a
divisor hit, `none` when the loop falls through. -/
def trialDivide : List Nat → Nat → Option Bool
  | [], _ => none
  | p :: ps, n =>
    if n = p then some true
    else if n % p = 0 then some false
    else trialDivide ps n

/-- The `while d % 2 == 0` loop of `_decompose`, by fuel recursion. -/
def decomposeAux : Nat → Nat → Nat → Nat × Nat
  | 0, d, s => (d, s)
  | fuel + 1, d, s =>
    if d % 2 = 0 then decomposeAux fuel (d / 2) (s + 1) else (d, s)

/-- `_decompose(n)`: write `n - 1 = d * 2 ^ s` with `d` odd (fuel `n` suffices
for every `n ≥ 2`, the only inputs the caller passes). -/
def _decompose (n : Nat) : Nat × Nat := decomposeAux n (n - 1) 0

/-- The `for _ in range(s - 1)` squaring loop of `_check_witness`. -/
def checkLoop : Nat → Nat → Nat → Bool
  | 0, _, _ => false
  | fuel + 1, x, n =>
    let x2 := x * x % n
    if x2 = n - 1 then true else checkLoop fuel x2 n

/-- `_check_witness(a, s, d, n)`: `True` when base `a` fails to prove `n`
composite. -/
def _check_witness (a s d n : Nat) : Bool :=
  let x := powMod a d n
  if x = 1 || x = n - 1 then true else checkLoop (s - 1) x n

/-- `is_probable_prime(n, rounds)`.  The implicit global random generator of
the source is passed explicitly as an oracle `rnd`; draw `j` of
`random.randrange(2, n - 2)` is embedded as `2 + rnd j % (n - 4)`, some value
in `[2, n - 3]`. -/
def is_probable_prime (n : Int) (rounds : Nat) (rnd : Nat → Nat) : Bool :=
  if n < 2 then false
  else
    let m := n.toNat
    match trialDivide smallTrialPrimes m with
    | some b => b
    | none =>
      let ds := _decompose m
      let bases :=
        if n < 2 ^ 64 then _DET_BASES_64
        else (List.range rounds).map fun j => 2 + rnd j % (m - 4)
      bases.all fun a => _check_witness a ds.2 ds.1 m

/-- Integer square root, embedding `int(limit ** 0.5)` of the source (the
float computation is exact on every value considered in this file). -/
def isqrt (n : Nat) : Nat :=
  (List.range (n + 1)).foldl (fun acc k => if k * k ≤ n then k else acc) 0

/-- `sieve(limit)`: odds-only bitset Sieve of Eratosthenes, transcribed
loop-for-loop from the source (`composite` is the marking bitset; index `i`
stands for the odd value `2*i + 1`). -/
def sieve (limit : Int) : List Int :=
  if limit < 2 then []
  else
    let n := limit.toNat
    let size := n / 2
    let r := isqrt n
    let composite := (pyRange 3 (r + 1) 2).foldl
      (fun c i =>
        if (c >>> (i / 2)) &&& 1 = 0 then
          (pyRange (i * i / 2) size i).foldl (fun c2 j => c2 ||| (1 <<< j)) c
        else c) 0
    (2 : Int) :: ((pyRange 1 size 1).filter fun i =>
        decide ((composite >>> i) &&& 1 = 0) && decide (2 * i + 1 ≤ n)).map
      fun i => ((2 * i + 1 : Nat) : Int)

/-! ### The floor remainder shrinks in absolute value -/

lemma natAbs_fmod_lt (a : Int) {b : Int} (hb : b ≠ 0) :
    (Int.fmod a b).natAbs < b.natAbs := by
  rcases b with n | n
  · simp only [Int.ofNat_eq_coe] at hb ⊢
    have hn : 0 < (n : Int) := by
      rcases n with _ | n
      · exact absurd rfl hb
      · exact_mod_cast Nat.succ_pos n
    rw [Int.fmod_eq_emod _ (le_of_lt hn)]
    have h1 := Int.emod_nonneg a (ne_of_gt hn)
    have h2 := Int.emod_lt_of_pos a hn
    simp only [Int.natAbs_ofNat]
    omega
  · rcases a with m | m
    · rcases m with _ | m
      · simp [Int.zero_fmod]
      · have h : Int.fmod (Int.ofNat (m + 1)) (Int.negSucc n) =
            Int.subNatNat (m % (n + 1)) n := rfl
        have hlt : m % (n + 1) ≤ n :=
          Nat.lt_succ_iff.mp (Nat.mod_lt m (Nat.succ_pos n))
        rw [h, Int.subNatNat_eq_coe]
        simp only [Int.natAbs_negSucc]
        generalize m % (n + 1) = p at hlt
        omega
    · have h : Int.fmod (Int.negSucc m) (Int.negSucc n) =
          -(Int.ofNat ((m + 1) % (n + 1))) := rfl
      have hlt : (m + 1) % (n + 1) ≤ n :=
        Nat.lt_succ_iff.mp (Nat.mod_lt (m + 1) (Nat.succ_pos n))
      rw [h]
      simp only [Int.ofNat_eq_coe, Int.natAbs_neg, Int.natAbs_ofNat,
        Int.natAbs_negSucc]
      omega

lemma sub_fdiv_mul_eq_fmod (a b : Int) : a - Int.fdiv a b * b = Int.fmod a b := by
  rw [Int.fmod_def]; ring

/-! ### The egcd loop: termination, Bezout identity, gcd value, sign -/

lemma egcdLoop_isSome : ∀ (fuel : Nat) (old_r r old_s s old_t t : Int),
    r.natAbs < fuel → (egcdLoop fuel old_r r old_s s old_t t).isSome = true := by
  intro fuel
  induction fuel with
  | zero => intro _ r _ _ _ _ h; exact absurd h (by omega)
  | succ fuel ih =>
    intro old_r r old_s s old_t t h
    simp only [egcdLoop]
    split
    · rfl
    · next hr =>
      apply ih
      have h1 : (old_r - Int.fdiv old_r r * r).natAbs < r.natAbs := by
        rw [sub_fdiv_mul_eq_fmod]; exact natAbs_fmod_lt old_r hr
      omega

lemma egcdLoop_bezout (a b : Int) : ∀ (fuel : Nat) (old_r r old_s s old_t t g x y : Int),
    a * old_s + b * old_t = old_r → a * s + b * t = r →
    egcdLoop fuel old_r r old_s s old_t t = some (g, x, y) →
    a * x + b * y = g := by
  intro fuel
  induction fuel with
  | zero => intro old_r r old_s s old_t t g x y _ _ heq; simp [egcdLoop] at heq
  | succ fuel ih =>
    intro old_r r old_s s old_t t g x y h1 h2 heq
    simp only [egcdLoop] at heq
    split at heq
    · obtain ⟨rfl, rfl, rfl⟩ : old_r = g ∧ old_s = x ∧ old_t = y := by
        simpa using heq
      exact h1
    · exact ih _ _ _ _ _ _ _ _ _ h2
        (by linear_combination h1 - Int.fdiv old_r r * h2) heq

lemma gcd_sub_mul (a b q : Int) : Int.gcd b (a - q * b) = Int.gcd a b := by
  apply Nat.dvd_antisymm
  · have h1 : (↑(Int.gcd b (a - q * b)) : Int) ∣ b := Int.gcd_dvd_left
    have h2 : (↑(Int.gcd b (a - q * b)) : Int) ∣ a - q * b := Int.gcd_dvd_right
    have h3 : (↑(Int.gcd b (a - q * b)) : Int) ∣ a := by
      have := dvd_add h2 (h1.mul_left q)
      simpa using this
    exact Int.natCast_dvd_natCast.mp (Int.dvd_gcd h3 h1)
  · have h1 : (↑(Int.gcd a b) : Int) ∣ a := Int.gcd_dvd_left
    have h2 : (↑(Int.gcd a b) : Int) ∣ b := Int.gcd_dvd_right
    have h3 : (↑(Int.gcd a b) : Int) ∣ a - q * b := dvd_sub h1 (h2.mul_left q)
    exact Int.natCast_dvd_natCast.mp (Int.dvd_gcd h2 h3)

lemma egcdLoop_natAbs_gcd : ∀ (fuel : Nat) (old_r r old_s s old_t t g x y : Int),
    egcdLoop fuel old_r r old_s s old_t t = some (g, x, y) →
    g.natAbs = Int.gcd old_r r := by
  intro fuel
  induction fuel with
  | zero => intro old_r r old_s s old_t t g x y heq; simp [egcdLoop] at heq
  | succ fuel ih =>
    intro old_r r old_s s old_t t g x y heq
    simp only [egcdLoop] at heq
    split at heq
    · next hr =>
      obtain ⟨rfl, rfl, rfl⟩ : old_r = g ∧ old_s = x ∧ old_t = y := by
        simpa using heq
      rw [hr, Int.gcd_zero_right]
    · next hr =>
      have := ih _ _ _ _ _ _ _ _ _ heq
      rw [this, gcd_sub_mul]

lemma egcdLoop_nonneg : ∀ (fuel : Nat) (old_r r old_s s old_t t g x y : Int),
    0 ≤ old_r → 0 ≤ r →
    egcdLoop fuel old_r r old_s s old_t t = some (g, x, y) → 0 ≤ g := by
  intro fuel
  induction fuel with
  | zero => intro old_r r old_s s old_t t g x y _ _ heq; simp [egcdLoop] at heq
  | succ fuel ih =>
    intro old_r r old_s s old_t t g x y h1 h2 heq
    simp only [egcdLoop] at heq
    split at heq
    · obtain ⟨rfl, rfl, rfl⟩ : old_r = g ∧ old_s = x ∧ old_t = y := by
        simpa using heq
      exact h1
    · next hr =>
      have hpos : 0 < r := lt_of_le_of_ne h2 (Ne.symm hr)
      have hnn : 0 ≤ old_r - Int.fdiv old_r r * r := by
        rw [sub_fdiv_mul_eq_fmod]; exact Int.fmod_nonneg' old_r hpos
      exact ih _ _ _ _ _ _ _ _ _ h2 hnn heq

lemma egcd_loop_eq (a b : Int) :
    egcdLoop (b.natAbs + 1) a b 1 0 0 1 = some (egcd a b) := by
  have h := egcdLoop_isSome (b.natAbs + 1) a b 1 0 0 1 (by omega)
  obtain ⟨v, hv⟩ := Option.isSome_iff_exists.mp h
  simp [egcd, hv]

/-- C7: `egcd(a, b)` terminates for every pair of integer inputs, including
zero and negative values: the quotient-subtraction loop reaches remainder
zero within `|b| + 1` iterations and yields the returned triple. -/
theorem egcd_terminates (a b : Int) :
    ∃ g x y : Int, egcdLoop (b.natAbs + 1) a b 1 0 0 1 = some (g, x, y) ∧
      egcd a b = (g, x, y) :=
  ⟨(egcd a b).1, (egcd a b).2.1, (egcd a b).2.2, by rw [egcd_loop_eq], rfl⟩

/-- C2 (counterexample): at `a = -4, b = 0` the loop body never runs and
`egcd` returns `(-4, 1, 0)`, whose first component is negative — refuting
"g ≥ 0 for every integer input". -/
theorem egcd_negative_g : (egcd (-4) 0).1 = -4 ∧ (egcd (-4) 0).1 < 0 := by decide

/-- C2 (amended): for all non-negative inputs the first component of
`egcd(a, b)` is non-negative. -/
theorem egcd_nonneg_of_nonneg (a b : Int) (ha : 0 ≤ a) (hb : 0 ≤ b) :
    0 ≤ (egcd a b).1 :=
  egcdLoop_nonneg (b.natAbs + 1) a b 1 0 0 1
    (egcd a b).1 (egcd a b).2.1 (egcd a b).2.2 ha hb (egcd_loop_eq a b)

/-- Witness for `egcd_nonneg_of_nonneg` at `a = 4, b = 6`. -/
theorem egcd_nonneg_of_nonneg_witness :
    0 ≤ (4 : Int) ∧ 0 ≤ (6 : Int) ∧ 0 ≤ (egcd 4 6).1 :=
  ⟨by decide, by decide, egcd_nonneg_of_nonneg 4 6 (by decide) (by decide)⟩

/-- C4: for all non-negative `a`, `b` not both zero, `egcd(a, b) = (g, x, y)`
satisfies the Bezout identity `a*x + b*y = g` and `g = gcd(a, b)`. -/
theorem egcd_bezout_gcd (a b : Int) (ha : 0 ≤ a) (hb : 0 ≤ b)
    (hab : ¬(a = 0 ∧ b = 0)) :
    a * (egcd a b).2.1 + b * (egcd a b).2.2 = (egcd a b).1 ∧
    (egcd a b).1 = (Int.gcd a b : Int) := by
  have h := egcd_loop_eq a b
  constructor
  · exact egcdLoop_bezout a b (b.natAbs + 1) a b 1 0 0 1
      (egcd a b).1 (egcd a b).2.1 (egcd a b).2.2 (by ring) (by ring) h
  · have h1 := egcdLoop_natAbs_gcd (b.natAbs + 1) a b 1 0 0 1
      (egcd a b).1 (egcd a b).2.1 (egcd a b).2.2 h
    have h2 := egcdLoop_nonneg (b.natAbs + 1) a b 1 0 0 1
      (egcd a b).1 (egcd a b).2.1 (egcd a b).2.2 ha hb h
    rw [← h1, Int.natAbs_of_nonneg h2]

/-- Witness for `egcd_bezout_gcd` at `a = 4, b = 6`. -/
theorem egcd_bezout_gcd_witness :
    (0 ≤ (4 : Int) ∧ 0 ≤ (6 : Int) ∧ ¬((4 : Int) = 0 ∧ (6 : Int) = 0)) ∧
    4 * (egcd 4 6).2.1 + 6 * (egcd 4 6).2.2 = (egcd 4 6).1 ∧
    (egcd 4 6).1 = (Int.gcd 4 6 : Int) :=
  ⟨⟨by decide, by decide, by decide⟩,
    egcd_bezout_gcd 4 6 (by decide) (by decide) (by decide)⟩

/-! ### Modular inverse -/

lemma gcd_fmod_left (a m : Int) : Int.gcd (a.fmod m) m = Int.gcd a m := by
  have h : a.fmod m = a - Int.fdiv a m * m := (sub_fdiv_mul_eq_fmod a m).symm
  rw [h, Int.gcd_comm, gcd_sub_mul]

lemma modinv_eq (a m : Int) :
    modinv a m =
      if (egcd (a.fmod m) m).1 ≠ 1 then none
      else some ((egcd (a.fmod m) m).2.1.fmod m) := rfl

/-- C5: for `m > 1`, `modinv(a, m)` raises (returns `none`) exactly when
`gcd(a, m) ≠ 1`, and otherwise returns an `x` in `[0, m)` with
`(a * x) % m = 1`. -/
theorem modinv_spec (a m : Int) (hm : 1 < m) :
    (modinv a m = none ↔ Int.gcd a m ≠ 1) ∧
    (Int.gcd a m = 1 →
      ∃ x, modinv a m = some x ∧ 0 ≤ x ∧ x < m ∧ (a * x).fmod m = 1) := by
  have hm0 : 0 < m := by omega
  have hmnn : 0 ≤ m := le_of_lt hm0
  have ha'nn : 0 ≤ a.fmod m := Int.fmod_nonneg' a hm0
  have hloop := egcd_loop_eq (a.fmod m) m
  have hg : (egcd (a.fmod m) m).1.natAbs = Int.gcd (a.fmod m) m :=
    egcdLoop_natAbs_gcd (m.natAbs + 1) (a.fmod m) m 1 0 0 1
      (egcd (a.fmod m) m).1 (egcd (a.fmod m) m).2.1 (egcd (a.fmod m) m).2.2 hloop
  have hgnn : 0 ≤ (egcd (a.fmod m) m).1 :=
    egcdLoop_nonneg (m.natAbs + 1) (a.fmod m) m 1 0 0 1
      (egcd (a.fmod m) m).1 (egcd (a.fmod m) m).2.1 (egcd (a.fmod m) m).2.2
      ha'nn hmnn hloop
  have hgeq : (egcd (a.fmod m) m).1 = (Int.gcd a m : Int) := by
    rw [← gcd_fmod_left a m, ← hg, Int.natAbs_of_nonneg hgnn]
  constructor
  · constructor
    · intro hnone
      intro hgcd1
      rw [modinv_eq, hgeq, hgcd1] at hnone
      simp at hnone
    · intro hne
      rw [modinv_eq, hgeq]
      have : ((Int.gcd a m : Int)) ≠ 1 := by exact_mod_cast hne
      simp [this]
  · intro h1
    have hgone : (egcd (a.fmod m) m).1 = 1 := by
      rw [hgeq, h1]; rfl
    refine ⟨(egcd (a.fmod m) m).2.1.fmod m, ?_, Int.fmod_nonneg' _ hm0,
      Int.fmod_lt_of_pos _ hm0, ?_⟩
    · rw [modinv_eq, hgone]
      simp
    · have hbez : a.fmod m * (egcd (a.fmod m) m).2.1 +
          m * (egcd (a.fmod m) m).2.2 = (egcd (a.fmod m) m).1 :=
        egcdLoop_bezout (a.fmod m) m (m.natAbs + 1) (a.fmod m) m 1 0 0 1
          (egcd (a.fmod m) m).1 (egcd (a.fmod m) m).2.1 (egcd (a.fmod m) m).2.2
          (by ring) (by ring) hloop
      rw [hgone] at hbez
      generalize hxg : (egcd (a.fmod m) m).2.1 = x at hbez ⊢
      generalize hyg : (egcd (a.fmod m) m).2.2 = y at hbez
      have hxeq : a.fmod m * x = 1 - m * y := by linarith
      rw [Int.fmod_eq_emod x hmnn, Int.fmod_eq_emod (a * (x % m)) hmnn]
      have step1 : (a * (x % m)) % m = (a * x) % m := by
        rw [Int.mul_emod a (x % m), Int.mul_emod a x,
          Int.emod_emod_of_dvd x (dvd_refl m)]
      have step2 : (a * x) % m = (a.fmod m * x) % m := by
        rw [Int.fmod_eq_emod a hmnn, Int.mul_emod a x,
          Int.mul_emod (a % m) x, Int.emod_emod_of_dvd a (dvd_refl m)]
      rw [step1, step2, hxeq,
        show (1 : Int) - m * y = 1 + m * (-y) by ring,
        Int.add_mul_emod_self_left]
      exact Int.emod_eq_of_lt (by omega) (by omega)

/-- Witness for `modinv_spec` at `a = 3, m = 11`. -/
theorem modinv_spec_witness :
    (1 : Int) < 11 ∧
    ((modinv 3 11 = none ↔ Int.gcd 3 11 ≠ 1) ∧
      (Int.gcd 3 11 = 1 →
        ∃ x, modinv 3 11 = some x ∧ 0 ≤ x ∧ x < 11 ∧
          ((3 : Int) * x).fmod 11 = 1)) :=
  ⟨by decide, modinv_spec 3 11 (by decide)⟩

/-! ### Modular exponentiation computes b ^ e % n -/

lemma powModAux_eq : ∀ (fuel b e n : Nat), e < fuel →
    powModAux fuel b e n = b ^ e % n := by
  intro fuel
  induction fuel with
  | zero => intro b e n h; omega
  | succ fuel ih =>
    intro b e n h
    simp only [powModAux]
    split
    · next he => rw [he, pow_zero]
    · next he =>
      rw [ih b (e / 2) n (by omega)]
      split
      · next hpar =>
        rw [← Nat.mul_mod, ← pow_add]
        have he2 : e / 2 + e / 2 = e := by omega
        rw [he2]
      · next hpar =>
        have hin : b ^ (e / 2) % n * (b ^ (e / 2) % n) % n =
            b ^ (e / 2 + e / 2) % n := by
          rw [← Nat.mul_mod, ← pow_add]
        rw [hin, ← Nat.mul_mod, ← pow_succ]
        have he2 : e / 2 + e / 2 + 1 = e := by omega
        rw [he2]

lemma powMod_eq (b e n : Nat) : powMod b e n = b ^ e % n :=
  powModAux_eq (e + 1) b e n (by omega)

set_option maxRecDepth 8000

/-! ### Primality test: below 2^64 the verdict ignores rounds and randomness -/

lemma is_probable_prime_indep (n : Int) (h : n < 2 ^ 64) (r₁ r₂ : Nat)
    (g₁ g₂ : Nat → Nat) :
    is_probable_prime n r₁ g₁ = is_probable_prime n r₂ g₂ := by
  simp only [is_probable_prime]
  split
  · rfl
  · cases htd : trialDivide smallTrialPrimes n.toNat
    · simp only [htd, if_pos h]
    · simp only [htd]

/-- C3 (amended): for every integer `n < 2^64` the verdict of
`is_probable_prime` is deterministic — computed from the fixed witness set
`{2,3,5,7,11,13,17}` with no dependence on the round count or the random
source.  (The further part of the original claim, that this verdict equals
primality on the whole range `n < 2^64`, is false: see
`is_probable_prime_pseudoprime`.) -/
theorem is_probable_prime_deterministic (n : Int) (hn : n < 2 ^ 64)
    (rounds₁ rounds₂ : Nat) (rnd₁ rnd₂ : Nat → Nat) :
    is_probable_prime n rounds₁ rnd₁ = is_probable_prime n rounds₂ rnd₂ :=
  is_probable_prime_indep n hn rounds₁ rounds₂ rnd₁ rnd₂

/-- Witness for `is_probable_prime_deterministic` at `n = 341`. -/
theorem is_probable_prime_deterministic_witness :
    (341 : Int) < 2 ^ 64 ∧
    is_probable_prime 341 8 (fun _ => 0) = is_probable_prime 341 3 (fun j => j + 5) :=
  ⟨by decide, is_probable_prime_deterministic 341 (by decide) 8 3 _ _⟩

/-- C3 (counterexample): `341550071728321 = 10670053 * 32010157` is composite
yet below `2^64`, and `is_probable_prime` reports it prime — it is a strong
pseudoprime to every base in the fixed witness set, so the claimed
"true iff prime below 2^64" fails. -/
theorem is_probable_prime_pseudoprime :
    is_probable_prime 341550071728321 8 (fun _ => 0) = true ∧
    ¬ Nat.Prime 341550071728321 ∧ (341550071728321 : Int) < 2 ^ 64 := by
  refine ⟨by decide, ?_, by decide⟩
  intro hp
  rcases hp.eq_one_or_self_of_dvd 10670053 ⟨32010157, by norm_num⟩ with h | h
  · exact absurd h (by norm_num)
  · exact absurd h (by norm_num)

/-- C6: the primality test matches ground truth on the spec's fixed cases:
`2^61 - 1` (Mersenne prime) is accepted, `341 = 11 * 31` (base-2 Fermat
pseudoprime) is rejected, `1` is rejected, `2` is accepted — for every round
count and random source. -/
theorem is_probable_prime_fixed_cases (rounds : Nat) (rnd : Nat → Nat) :
    is_probable_prime (2 ^ 61 - 1) rounds rnd = true ∧
    is_probable_prime 341 rounds rnd = false ∧
    is_probable_prime 1 rounds rnd = false ∧
    is_probable_prime 2 rounds rnd = true := by
  refine ⟨?_, ?_, ?_, ?_⟩ <;>
    rw [is_probable_prime_indep _ (by decide) rounds 8 rnd (fun _ => 0)] <;>
    decide

/-! ### Sieve -/

/-- C1 (failing evaluation): the collection step of `sieve` ranges over
`range(1, limit // 2)` and so drops the last odd candidate whenever `limit`
is odd — `sieve(3)` returns `[2]`, omitting the prime `3` itself, and
`sieve(5)` omits `5`.  This contradicts "every prime `p ≤ limit` (including
`limit` itself when `limit` is prime) appears in the result". -/
theorem sieve_omits_odd_prime_limit :
    sieve 3 = [2] ∧ Nat.Prime 3 ∧ (3 : Int) ∉ sieve 3 ∧ sieve 5 = [2, 3] := by
  refine ⟨by decide, by norm_num, by decide, by decide⟩

/-! ### Bitwise AND-NOT: unfolding and bit characterization -/

lemma andNotAux_congr : ∀ (f₁ f₂ a b : Nat), a < f₁ → a < f₂ →
    andNotAux f₁ a b = andNotAux f₂ a b := by
  intro f₁
  induction f₁ with
  | zero => intro f₂ a b h _; omega
  | succ f₁ ih =>
    intro f₂ a b h1 h2
    rcases f₂ with _ | f₂
    · omega
    · simp only [andNotAux]
      by_cases ha : a = 0
      · simp [ha]
      · have hd : a / 2 < a := Nat.div_lt_self (Nat.pos_of_ne_zero ha) one_lt_two
        rw [if_neg ha, if_neg ha, ih f₂ (a / 2) (b / 2) (by omega) (by omega)]

lemma andNot_zero (b : Nat) : andNot 0 b = 0 := rfl

lemma andNotAux_succ (f a b : Nat) :
    andNotAux (f + 1) a b =
      if a = 0 then 0
      else 2 * andNotAux f (a / 2) (b / 2) + a % 2 * (1 - b % 2) := rfl

lemma andNot_rec (a b : Nat) (ha : a ≠ 0) :
    andNot a b = 2 * andNot (a / 2) (b / 2) + a % 2 * (1 - b % 2) := by
  have hd : a / 2 < a := Nat.div_lt_self (Nat.pos_of_ne_zero ha) one_lt_two
  rw [show andNot a b = andNotAux (a + 1) a b from rfl, andNotAux_succ,
    if_neg ha,
    andNotAux_congr a (a / 2 + 1) (a / 2) (b / 2) (by omega) (by omega)]
  rfl

lemma andNot_self (a : Nat) : andNot a a = 0 := by
  induction a using Nat.strong_induction_on with
  | _ a ih =>
    by_cases ha : a = 0
    · rw [ha]; rfl
    · rw [andNot_rec a a ha,
        ih (a / 2) (Nat.div_lt_self (Nat.pos_of_ne_zero ha) one_lt_two)]
      rcases Nat.mod_two_eq_zero_or_one a with h | h <;> simp [h]

lemma testBit_andNot (a b k : Nat) :
    (andNot a b).testBit k = (a.testBit k && !(b.testBit k)) := by
  induction k generalizing a b with
  | zero =>
    by_cases ha : a = 0
    · subst ha; rw [andNot_zero]; simp
    · rw [andNot_rec a b ha]
      rcases Nat.mod_two_eq_zero_or_one a with h | h <;>
        rcases Nat.mod_two_eq_zero_or_one b with h' | h' <;>
          simp [Nat.testBit_zero, h, h', Nat.mul_add_mod]
  | succ k ih =>
    by_cases ha : a = 0
    · subst ha; rw [andNot_zero]; simp
    · rw [andNot_rec a b ha]
      have hc : a % 2 * (1 - b % 2) ≤ 1 := by
        rcases Nat.mod_two_eq_zero_or_one a with h | h <;>
          rcases Nat.mod_two_eq_zero_or_one b with h' | h' <;> simp [h, h']
      have hdiv : (2 * andNot (a / 2) (b / 2) + a % 2 * (1 - b % 2)) / 2 =
          andNot (a / 2) (b / 2) := by omega
      rw [Nat.testBit_add_one, hdiv, ih, Nat.testBit_add_one,
        Nat.testBit_add_one]

/-! ### The lowest set bit is the largest power of two divisor -/

lemma lowbit_spec : ∀ x : Nat, 0 < x →
    ∃ k, lowbit x = 2 ^ k ∧ 2 ^ k ∣ x ∧ ¬ 2 ^ (k + 1) ∣ x := by
  intro x
  induction x using Nat.strong_induction_on with
  | _ x ih =>
    intro hx
    rcases Nat.mod_two_eq_zero_or_one x with hpar | hpar
    · have hx2 : 0 < x / 2 := by omega
      obtain ⟨k, h1, h2, h3⟩ := ih (x / 2) (by omega) hx2
      refine ⟨k + 1, ?_, ?_, ?_⟩
      · rw [lowbit, andNot_rec x (x - 1) (by omega)]
        have e1 : (x - 1) / 2 = x / 2 - 1 := by omega
        rw [e1, hpar]
        show 2 * andNot (x / 2) (x / 2 - 1) + 0 * (1 - (x - 1) % 2) = 2 ^ (k + 1)
        rw [show andNot (x / 2) (x / 2 - 1) = lowbit (x / 2) from rfl, h1]
        ring
      · obtain ⟨m, hm⟩ := h2
        refine ⟨m, ?_⟩
        have hp : 2 ^ (k + 1) = 2 * 2 ^ k := by ring
        rw [hp, Nat.mul_assoc, ← hm]
        omega
      · intro hdvd
        apply h3
        obtain ⟨m, hm⟩ := hdvd
        refine ⟨m, ?_⟩
        have hm' : x = 2 * (2 ^ (k + 1) * m) := by
          rw [hm, show (2 : Nat) ^ (k + 1 + 1) = 2 * 2 ^ (k + 1) by ring,
            Nat.mul_assoc]
        omega
    · refine ⟨0, ?_, one_dvd x, ?_⟩
      · rw [lowbit, andNot_rec x (x - 1) (by omega)]
        have e1 : (x - 1) / 2 = x / 2 := by omega
        have e2 : (x - 1) % 2 = 0 := by omega
        rw [e1, hpar, e2,
          show andNot (x / 2) (x / 2) = 0 from andNot_self (x / 2)]
        norm_num
      · intro h2
        rw [pow_one] at h2
        omega

/-- C9: `lowbit(0)` is the defined result `0` (no error), and for every
`x > 0`, `lowbit(x)` is the largest power of two dividing `x`. -/
theorem lowbit_claim :
    lowbit 0 = 0 ∧
    ∀ x : Nat, 0 < x → ∃ k, lowbit x = 2 ^ k ∧ 2 ^ k ∣ x ∧
      ∀ j, 2 ^ j ∣ x → 2 ^ j ≤ lowbit x := by
  refine ⟨rfl, fun x hx => ?_⟩
  obtain ⟨k, h1, h2, h3⟩ := lowbit_spec x hx
  refine ⟨k, h1, h2, fun j hj => ?_⟩
  rw [h1]
  apply Nat.pow_le_pow_right (by omega)
  by_contra hgt
  push_neg at hgt
  exact h3 (dvd_trans (pow_dvd_pow 2 (by omega)) hj)

/-- Witness for `lowbit_claim` at `x = 12` (`lowbit 12 = 4`). -/
theorem lowbit_claim_witness :
    lowbit 0 = 0 ∧ 0 < 12 ∧ (∃ k, lowbit 12 = 2 ^ k ∧ 2 ^ k ∣ 12 ∧
      ∀ j, 2 ^ j ∣ 12 → 2 ^ j ≤ lowbit 12) :=
  ⟨lowbit_claim.1, by decide, lowbit_claim.2 12 (by decide)⟩

/-- C10: each of `bitset_add`, `bitset_remove`, `bitset_contains` fails with a
negative-shift error on every negative index (even though only
`bitset_from_indices` documents a negative-index check), and returns a value
on every non-negative index. -/
theorem bitset_negative_index (bs : Nat) (i : Int) :
    (i < 0 → bitset_add bs i = none ∧ bitset_remove bs i = none ∧
      bitset_contains bs i = none) ∧
    (0 ≤ i → (bitset_add bs i).isSome = true ∧
      (bitset_remove bs i).isSome = true ∧
      (bitset_contains bs i).isSome = true) := by
  constructor
  · intro h
    exact ⟨if_pos h, if_pos h, if_pos h⟩
  · intro h
    have h' : ¬ i < 0 := not_lt.mpr h
    refine ⟨?_, ?_, ?_⟩ <;>
      simp [bitset_add, bitset_remove, bitset_contains, h']

/-- Witness for `bitset_negative_index` at `bs = 5`, `i = -1` and `i = 3`. -/
theorem bitset_negative_index_witness :
    ((-1 : Int) < 0 ∧ bitset_add 5 (-1) = none ∧ bitset_remove 5 (-1) = none ∧
      bitset_contains 5 (-1) = none) ∧
    (0 ≤ (3 : Int) ∧ (bitset_add 5 3).isSome = true) :=
  ⟨⟨by decide, (bitset_negative_index 5 (-1)).1 (by decide)⟩,
    ⟨by decide, ((bitset_negative_index 5 3).2 (by decide)).1⟩⟩

/-! ### bit_length of a power of two -/

lemma bitLenAux_congr : ∀ (f₁ f₂ n : Nat), n < f₁ → n < f₂ →
    bitLenAux f₁ n = bitLenAux f₂ n := by
  intro f₁
  induction f₁ with
  | zero => intro f₂ n h _; omega
  | succ f₁ ih =>
    intro f₂ n h1 h2
    rcases f₂ with _ | f₂
    · omega
    · simp only [bitLenAux]
      by_cases hn : n = 0
      · simp [hn]
      · have hd : n / 2 < n := Nat.div_lt_self (Nat.pos_of_ne_zero hn) one_lt_two
        rw [if_neg hn, if_neg hn, ih f₂ (n / 2) (by omega) (by omega)]

lemma bitLenAux_succ (f n : Nat) :
    bitLenAux (f + 1) n = if n = 0 then 0 else bitLenAux f (n / 2) + 1 := rfl

lemma bitLen_rec (n : Nat) (hn : n ≠ 0) : bitLen n = bitLen (n / 2) + 1 := by
  have hd : n / 2 < n := Nat.div_lt_self (Nat.pos_of_ne_zero hn) one_lt_two
  rw [show bitLen n = bitLenAux (n + 1) n from rfl, bitLenAux_succ, if_neg hn,
    bitLenAux_congr n (n / 2 + 1) (n / 2) (by omega) (by omega)]
  rfl

lemma bitLen_two_pow (k : Nat) : bitLen (2 ^ k) = k + 1 := by
  induction k with
  | zero => rfl
  | succ k ih =>
    have hpos : (2 : Nat) ^ (k + 1) ≠ 0 := by positivity
    have h2 : 2 ^ (k + 1) / 2 = 2 ^ k := by
      rw [pow_succ]; exact Nat.mul_div_cancel _ (by norm_num)
    rw [bitLen_rec _ hpos, h2, ih]

/-! ### Bits of a number with known lowest set bit -/

lemma testBit_of_dvd_lt {bs k : Nat} (h : 2 ^ k ∣ bs) {j : Nat} (hj : j < k) :
    bs.testBit j = false := by
  obtain ⟨m, rfl⟩ := h
  rw [Nat.testBit_to_div_mod]
  have e : (2 : Nat) ^ k = 2 ^ j * 2 ^ (k - j) := by
    rw [← pow_add]; congr 1; omega
  have hdiv : 2 ^ k * m / 2 ^ j = 2 ^ (k - j) * m := by
    rw [e, Nat.mul_assoc, Nat.mul_div_cancel_left _ (Nat.two_pow_pos j)]
  rw [hdiv]
  have hmod : 2 ^ (k - j) * m % 2 = 0 := by
    have e2 : (2 : Nat) ^ (k - j) = 2 * 2 ^ (k - j - 1) := by
      rw [← pow_succ']; congr 1; omega
    rw [e2, Nat.mul_assoc, Nat.mul_mod_right]
  simp [hmod]

lemma testBit_of_lowbit_dvd {bs k : Nat} (h : 2 ^ k ∣ bs)
    (h2 : ¬ 2 ^ (k + 1) ∣ bs) : bs.testBit k = true := by
  obtain ⟨m, rfl⟩ := h
  have hm : m % 2 = 1 := by
    rcases Nat.mod_two_eq_zero_or_one m with hp | hp
    · exfalso
      apply h2
      obtain ⟨m', rfl⟩ : 2 ∣ m := Nat.dvd_of_mod_eq_zero hp
      exact ⟨m', by ring⟩
    · exact hp
  rw [Nat.testBit_to_div_mod,
    Nat.mul_div_cancel_left _ (Nat.two_pow_pos k)]
  simp [hm]

lemma xor_lowbit_lt {bs k : Nat} (h1 : bs.testBit k = true) :
    bs ^^^ 2 ^ k < bs := by
  apply Nat.lt_of_testBit k ?_ h1 ?_
  · rw [Nat.testBit_xor, h1, Nat.testBit_two_pow]
    simp
  · intro j hj
    rw [Nat.testBit_xor, Nat.testBit_two_pow]
    have hne : ¬ (k = j) := by omega
    simp [hne]

/-! ### The Kernighan iteration yields exactly the set bits, ascending -/

lemma bitset_iterAux_spec : ∀ (fuel bs : Nat), bs ≤ fuel →
    (∀ j, j ∈ bitset_iterAux fuel bs ↔ bs.testBit j = true) ∧
    List.Sorted (· < ·) (bitset_iterAux fuel bs) := by
  intro fuel
  induction fuel with
  | zero =>
    intro bs h
    have hbs : bs = 0 := by omega
    subst hbs
    exact ⟨fun j => by simp [bitset_iterAux], by simp [bitset_iterAux]⟩
  | succ fuel ih =>
    intro bs hle
    by_cases h0 : bs = 0
    · subst h0
      exact ⟨fun j => by simp [bitset_iterAux], by simp [bitset_iterAux]⟩
    · obtain ⟨k, hlb, hdvd, hndvd⟩ := lowbit_spec bs (Nat.pos_of_ne_zero h0)
      have hlb' : andNot bs (bs - 1) = 2 ^ k := hlb
      have hbit : bs.testBit k = true := testBit_of_lowbit_dvd hdvd hndvd
      have hstep : bitset_iterAux (fuel + 1) bs =
          (bitLen (2 ^ k) - 1) :: bitset_iterAux fuel (bs ^^^ 2 ^ k) := by
        simp only [bitset_iterAux, if_neg h0]
        rw [hlb']
      have hhead : bitLen (2 ^ k) - 1 = k := by rw [bitLen_two_pow]; omega
      have hlt : bs ^^^ 2 ^ k < bs := xor_lowbit_lt hbit
      have ih' := ih (bs ^^^ 2 ^ k) (by omega)
      have hbit' : ∀ j, (bs ^^^ 2 ^ k).testBit j =
          ((bs.testBit j) ^^ decide (k = j)) := fun j => by
        rw [Nat.testBit_xor, Nat.testBit_two_pow]
      rw [hstep, hhead]
      constructor
      · intro j
        rw [List.mem_cons, ih'.1 j, hbit' j]
        by_cases hjk : j = k
        · subst hjk; simp [hbit]
        · have hkj : ¬ (k = j) := fun h => hjk h.symm
          simp [hjk, hkj]
      · rw [List.sorted_cons]
        refine ⟨?_, ih'.2⟩
        intro b hb
        have hbtest := (ih'.1 b).mp hb
        rw [hbit' b] at hbtest
        by_cases hbk : b = k
        · subst hbk; simp [hbit] at hbtest
        · have hkb : ¬ (k = b) := fun h => hbk h.symm
          rw [show decide (k = b) = false by simp [hkb]] at hbtest
          simp only [Bool.xor_false] at hbtest
          by_contra hble
          push_neg at hble
          have hblt : b < k := by omega
          rw [testBit_of_dvd_lt hdvd hblt] at hbtest
          exact absurd hbtest (by simp)

/-! ### Building a bitset from non-negative indices -/

lemma bitset_from_indicesAux_map : ∀ (l : List Nat) (bs : Nat),
    bitset_from_indicesAux (l.map (fun i => (i : Int))) bs =
      some (l.foldl (fun b i => b ||| (1 <<< i)) bs) := by
  intro l
  induction l with
  | nil => intro bs; rfl
  | cons i l ih =>
    intro bs
    simp only [List.map_cons, bitset_from_indicesAux, List.foldl_cons]
    rw [if_neg (not_lt.mpr (Int.natCast_nonneg i)), Int.toNat_ofNat]
    exact ih _

lemma foldl_or_testBit : ∀ (l : List Nat) (bs j : Nat),
    ((l.foldl (fun b i => b ||| (1 <<< i)) bs).testBit j) =
      (bs.testBit j || decide (j ∈ l)) := by
  intro l
  induction l with
  | nil => intro bs j; simp
  | cons i l ih =>
    intro bs j
    rw [List.foldl_cons, ih, Nat.testBit_or, Nat.one_shiftLeft,
      Nat.testBit_two_pow]
    by_cases hij : i = j
    · subst hij; simp [List.mem_cons]
    · have hji : ¬ j = i := fun h => hij h.symm
      by_cases hjl : j ∈ l <;> simp [hij, hji, hjl, List.mem_cons]

lemma bitset_contains_natCast (b i : Nat) :
    bitset_contains b (i : Int) = some (b.testBit i) := by
  rw [bitset_contains, if_neg (not_lt.mpr (Int.natCast_nonneg i)),
    Int.toNat_ofNat]
  congr 1
  rw [Nat.and_one_is_mod, Nat.shiftRight_eq_div_pow]
  exact (Nat.testBit_to_div_mod).symm

/-- C8: the bitset round-trip — iterating the bitset built from a list of
non-negative indices yields exactly those indices in strictly ascending order
(no duplicates, no omissions); moreover adding an index makes `contains` true
and removing it makes `contains` false, for every bitset and index. -/
theorem bitset_roundtrip :
    (∀ l : List Nat, ∃ bs,
        bitset_from_indices (l.map (fun i => (i : Int))) = some bs ∧
        List.Sorted (· < ·) (bitset_iter bs) ∧
        ∀ j : Nat, j ∈ bitset_iter bs ↔ j ∈ l) ∧
    (∀ (bs i : Nat),
        (∃ b, bitset_add bs (i : Int) = some b ∧
          bitset_contains b (i : Int) = some true) ∧
        (∃ b, bitset_remove bs (i : Int) = some b ∧
          bitset_contains b (i : Int) = some false)) := by
  constructor
  · intro l
    refine ⟨l.foldl (fun b i => b ||| (1 <<< i)) 0, ?_, ?_, ?_⟩
    · rw [bitset_from_indices, bitset_from_indicesAux_map]
    · exact (bitset_iterAux_spec _ _ le_rfl).2
    · intro j
      rw [bitset_iter, (bitset_iterAux_spec _ _ le_rfl).1 j, foldl_or_testBit]
      simp
  · intro bs i
    constructor
    · refine ⟨bs ||| (1 <<< i), ?_, ?_⟩
      · rw [bitset_add, if_neg (not_lt.mpr (Int.natCast_nonneg i)),
          Int.toNat_ofNat]
      · rw [bitset_contains_natCast]
        congr 1
        rw [Nat.testBit_or, Nat.one_shiftLeft, Nat.testBit_two_pow]
        simp
    · refine ⟨andNot bs (1 <<< i), ?_, ?_⟩
      · rw [bitset_remove, if_neg (not_lt.mpr (Int.natCast_nonneg i)),
          Int.toNat_ofNat]
      · rw [bitset_contains_natCast]
        congr 1
        rw [testBit_andNot, Nat.one_shiftLeft, Nat.testBit_two_pow]
        simp

/-- Witness for `bitset_roundtrip` at the list `[3, 1, 4]` and at
`bs = 9, i = 2`. -/
theorem bitset_roundtrip_witness :
    (∃ bs, bitset_from_indices ([3, 1, 4].map (fun i => (i : Int))) = some bs ∧
      List.Sorted (· < ·) (bitset_iter bs) ∧
      ∀ j : Nat, j ∈ bitset_iter bs ↔ j ∈ [3, 1, 4]) ∧
    (∃ b, bitset_add 9 ((2 : Nat) : Int) = some b ∧
      bitset_contains b ((2 : Nat) : Int) = some true) :=
  ⟨bitset_roundtrip.1 [3, 1, 4], (bitset_roundtrip.2 9 2).1⟩

/-- Witness for `egcd_terminates` at `a = -15, b = -6`. -/
theorem egcd_terminates_witness :
    ∃ g x y : Int, egcdLoop ((-6 : Int).natAbs + 1) (-15) (-6) 1 0 0 1 =
      some (g, x, y) ∧ egcd (-15) (-6) = (g, x, y) :=
  egcd_terminates (-15) (-6)

/-- Witness for `is_probable_prime_fixed_cases` at `rounds = 8` and the
constant random oracle. -/
theorem is_probable_prime_fixed_cases_witness :
    is_probable_prime (2 ^ 61 - 1) 8 (fun _ => 0) = true ∧
    is_probable_prime 341 8 (fun _ => 0) = false ∧
    is_probable_prime 1 8 (fun _ => 0) = false ∧
    is_probable_prime 2 8 (fun _ => 0) = true :=
  is_probable_prime_fixed_cases 8 (fun _ => 0)

end IntegerAdvanced
